import Mathlib

/-!
Verification of the delta-encoded event scheduler of the clickrs repository.

The embedding below follows the source files:
  src/x11/inputsource.rs   (XContext, InputType, InputEvent, InputEventQueue)
  src/wayland/inputsource.rs (NumlockWatcher, InputEventQueue)
  src/eventspec.rs          (EventSpec::parse_key)

Modelling conventions:
  * Rust Duration values are modelled as natural numbers (a fixed unit,
    milliseconds).  Duration subtraction in Rust aborts the process on
    underflow; that is modelled faithfully by the checked variants
    (checked_sub, fip_walk_checked, add_event_checked) returning Option,
    while the total variants use truncated Nat subtraction.
  * Rust Instant values are abstract timestamps, also natural numbers.
  * Rust String is modelled as List Char.
  * The x11 and wayland schedulers share the find_insertion_point,
    add_event, run_next, paused-polling and start logic verbatim; the only
    difference inside add_event is that the x11 variant converts a
    Keyboard payload to an XKeyboard keycode (InputType.as_x below, a
    payload-only change that never touches interval or remaining).  The
    embedding carries the x11 conversion, parameterised by the keycode
    translation function tr; instantiating tr trivially gives the wayland
    behaviour for the timing fields.
-/

namespace Clickrs

/-- Payload of one scheduled action, from enum InputType in
src/x11/inputsource.rs: a key name, a resolved X keycode, or a mouse
button number. -/
inductive InputType where
  | Keyboard (key_name : List Char)
  | XKeyboard (keycode : Nat)
  | Mouse (button : Nat)
deriving DecidableEq

/-- InputType::as_x from src/x11/inputsource.rs: replace a Keyboard payload
by the XKeyboard keycode obtained from the translation closure (in the
source, XContext::keycode_lookup); other payloads are unchanged. -/
def InputType.as_x (tr : List Char → Nat) : InputType → InputType
  | .Keyboard key_name => .XKeyboard (tr key_name)
  | t => t

/-- struct InputEvent from src/x11/inputsource.rs: payload, repeat interval
and the delta-encoded time remaining (both durations, in milliseconds). -/
structure InputEvent where
  event : InputType
  interval : Nat
  remaining : Nat
deriving DecidableEq

/-- The remaining fields of a queue, front first. -/
def rems (q : List InputEvent) : List Nat := q.map InputEvent.remaining

/-- Rust Duration subtraction (checked model): Duration - Duration aborts
on underflow, so the model returns none exactly when the subtrahend
exceeds the minuend. -/
def checked_sub (a b : Nat) : Option Nat := if b ≤ a then some (a - b) else none

/-- The loop of InputEventQueue::find_insertion_point
(src/x11/inputsource.rs lines 299-316, identical in the wayland variant):
walk the queue front to back carrying the incoming event's remaining,
which starts at its interval; stop before the first entry whose remaining
is strictly greater, otherwise subtract that entry's remaining and
continue.  Returns the insertion index together with the final remaining
of the incoming event. -/
def fip_walk : List InputEvent → Nat → Nat × Nat
  | [], r => (0, r)
  | v :: rest, r =>
    if r < v.remaining then (0, r)
    else ((fip_walk rest (r - v.remaining)).1 + 1, (fip_walk rest (r - v.remaining)).2)

/-- InputEventQueue::find_insertion_point: sets the incoming event's
remaining to its full interval and walks the queue. -/
def find_insertion_point (q : List InputEvent) (e : InputEvent) : Nat × Nat :=
  fip_walk q e.interval

/-- Checked variant of the walk: the subtraction
`event.remaining -= v_event.remaining` uses the abort-on-underflow
Duration subtraction. -/
def fip_walk_checked : List InputEvent → Nat → Option (Nat × Nat)
  | [], r => some (0, r)
  | v :: rest, r =>
    if r < v.remaining then some (0, r)
    else
      match checked_sub r v.remaining with
      | none => none
      | some r2 =>
        match fip_walk_checked rest r2 with
        | none => none
        | some p => some (p.1 + 1, p.2)

/-- The tail of InputEventQueue::add_event after the insertion point i and
the incoming event's final remaining are fixed: if an entry exists at i,
decrement its remaining by the incoming remaining, then insert the
incoming event at i (VecDeque::insert). -/
def add_at (q : List InputEvent) (i : Nat) (e : InputEvent) : List InputEvent :=
  match q[i]? with
  | some v => (q.set i ⟨v.event, v.interval, v.remaining - e.remaining⟩).insertIdx i e
  | none => q.insertIdx i e

/-- InputEventQueue::add_event (src/x11/inputsource.rs lines 319-340):
find the insertion point (which fixes the incoming remaining), convert a
Keyboard payload to a keycode, decrement the entry at the insertion point
if any, and insert.  The wayland variant (lines 325-343) is identical
except that no payload conversion happens; it is recovered by a trivial
tr. -/
def add_event (tr : List Char → Nat) (q : List InputEvent) (e : InputEvent) :
    List InputEvent :=
  let p := find_insertion_point q e
  add_at q p.1 ⟨e.event.as_x tr, e.interval, p.2⟩

/-- Checked variant of add_event: both Duration subtractions
(`event.remaining -= v_event.remaining` in the walk and
`next_event.remaining -= event.remaining` at the insertion point) abort on
underflow; the model returns none if either would. -/
def add_event_checked (tr : List Char → Nat) (q : List InputEvent) (e : InputEvent) :
    Option (List InputEvent) :=
  match fip_walk_checked q e.interval with
  | none => none
  | some p =>
    match q[p.1]? with
    | some v =>
      match checked_sub v.remaining p.2 with
      | none => none
      | some vr =>
        some ((q.set p.1 ⟨v.event, v.interval, vr⟩).insertIdx p.1
          ⟨e.event.as_x tr, e.interval, p.2⟩)
    | none => some (q.insertIdx p.1 ⟨e.event.as_x tr, e.interval, p.2⟩)

/-- Recursive reformulation of add_event used in proofs: walk and insert in
one pass.  Proved equal to add_event in add_event_eq_insert_walk. -/
def insert_walk (ev : InputType) (intv : Nat) : List InputEvent → Nat → List InputEvent
  | [], r => [⟨ev, intv, r⟩]
  | v :: rest, r =>
    if r < v.remaining then
      ⟨ev, intv, r⟩ :: ⟨v.event, v.interval, v.remaining - r⟩ :: rest
    else v :: insert_walk ev intv rest (r - v.remaining)

/-- Prefix sums of a list of Nats: entry i is the sum of entries 0..i of
the input.  Applied to the remaining fields of the queue this produces,
per the spec's central invariant, the absolute time-until-due of each
entry. -/
def prefixSums : List Nat → List Nat
  | [] => []
  | r :: rest => r :: (prefixSums rest).map (r + ·)

/-- Absolute time-until-due of queue entry i (the sum of remaining from
the front of the queue up to and including entry i), 0 past the end. -/
def absDueAt (q : List InputEvent) (i : Nat) : Nat :=
  (prefixSums (rems q)).getD i 0

/-- Specification-level model of insertion into the Delta Queue, on
absolute times-until-due: the new absolute time x is inserted before the
first entry strictly greater than x, i.e. after all entries less than or
equal to it (the strictly-less tie-break of the spec, section 4.1). -/
def absInsert (x : Nat) : List Nat → List Nat
  | [] => [x]
  | a :: rest => if x < a then x :: a :: rest else a :: absInsert x rest

/-- Specification-level model of popping the front of the Delta Queue, on
absolute times-until-due: the front entry fires and the clock reference is
advanced by its absolute time a, so every later entry's time-until-due
decreases by a. -/
def absPop : List Nat → List Nat
  | [] => []
  | a :: rest => rest.map (· - a)

/-- One Delta Queue operation: add_event with a given event, or
pop_front. -/
inductive QOp where
  | add (e : InputEvent)
  | pop
deriving DecidableEq

/-- Run a sequence of operations against the concrete delta-encoded queue,
starting empty.  add is InputEventQueue::add_event; pop is
VecDeque::pop_front (events.tail; popping an empty queue is a no-op, as in
run_next's None arm). -/
def runDelta (tr : List Char → Nat) (ops : List QOp) : List InputEvent :=
  ops.foldl (fun q op => match op with
    | .add e => add_event tr q e
    | .pop => q.tail) []

/-- Run the same sequence of operations against the specification-level
list of absolute times-until-due, starting empty. -/
def runAbs (ops : List QOp) : List Nat :=
  ops.foldl (fun L op => match op with
    | .add e => absInsert e.interval L
    | .pop => absPop L) []

/-! Scheduler state and run loop (src/x11/inputsource.rs lines 277-400,
identical in src/wayland/inputsource.rs lines 259-396). -/

/-- struct InputEventQueue's scheduling state: the pending events and the
last_active clock reference (an Instant, modelled as an abstract
timestamp). -/
structure SchedState where
  events : List InputEvent
  last_active : Nat
deriving DecidableEq

/-- What one call of run_next does to the thread before injecting: sleep
the fixed 100ms empty-queue quantum, sleep a computed duration, or not
sleep at all (the catch-up path). -/
inductive SleepAction where
  | idleSleep
  | sleptFor (d : Nat)
  | noSleep
deriving DecidableEq

/-- InputEventQueue::run_next (src/x11/inputsource.rs lines 342-372):
pop the front event (idle-sleep and return if empty); if its remaining
exceeds the elapsed wall time since last_active, sleep the difference and
set last_active to the instant after the sleep, otherwise (catch-up) do
not sleep and advance last_active by exactly the event's remaining; then
perform the injection and reinsert the event via add_event.  now is the
timestamp at which elapsed is read, now_after_sleep the timestamp when the
sleep branch re-reads the clock. -/
def run_next (tr : List Char → Nat) (s : SchedState) (now now_after_sleep : Nat) :
    SchedState × SleepAction :=
  match s.events with
  | [] => (s, .idleSleep)
  | e :: rest =>
    if e.remaining > now - s.last_active then
      (⟨add_event tr rest e, now_after_sleep⟩,
        .sleptFor (e.remaining - (now - s.last_active)))
    else
      (⟨add_event tr rest e, s.last_active + e.remaining⟩, .noSleep)

/-- One iteration of the outer loop of InputEventQueue::start
(src/x11/inputsource.rs lines 389-399) taken while paused() keeps
reporting true: the loop logs, sleeps the fixed 500ms pause_poll quantum,
and then sets last_active to the current instant.  The queue is not
touched. -/
def pause_poll_step (s : SchedState) (now : Nat) : SchedState :=
  { s with last_active := now }

/-- A whole paused phase of start: one pause_poll_step per outer-loop
iteration during which the gate stayed closed, at the given sequence of
wake-up timestamps. -/
def pause_phase (s : SchedState) (polls : List Nat) : SchedState :=
  polls.foldl pause_poll_step s

/-! Activity gate (x11: InputEventQueue::paused, src/x11/inputsource.rs
lines 374-383; wayland: NumlockWatcher and InputEventQueue::paused,
src/wayland/inputsource.rs lines 53-65 and 376-379). -/

/-- The numlock indicator bit of the XkbGetIndicatorState word is raised:
(indicators AND 0x02) == 0x02. -/
def indicator_raised (indicators : Nat) : Bool := (indicators &&& 2) == 2

/-- x11 InputEventQueue::paused: query the XKB indicator word and return
(indicators AND 0x02) != 0x02. -/
def x11_paused (indicators : Nat) : Bool := !((indicators &&& 2) == 2)

/-- wayland NumlockWatcher::enabled: for each keyboard device,
get_led_state mapped to whether LED_NUML is lit (modelled as Option Bool,
none for a device whose query returned Err); find the first Ok(true),
defaulting the find result to Ok(false) and the final unwrap to false. -/
def numlock_enabled (devices : List (Option Bool)) : Bool :=
  (((devices.find? (fun state_res => state_res.getD false)).getD (some false)).getD false)

/-- wayland InputEventQueue::paused: the negation of
NumlockWatcher::enabled. -/
def wayland_paused (devices : List (Option Bool)) : Bool := !(numlock_enabled devices)

/-! Injection transaction (XContext, src/x11/inputsource.rs lines 86-144).
Each XContext method is embedded as the trace of X protocol operations it
performs, in order. -/

/-- One X protocol operation performed during an injection transaction.
keyDown and keyUp are XTestFakeKeyEvent with is_press True and False;
buttonDown and buttonUp are XTestFakeButtonEvent likewise; getFocus is
XGetInputFocus, setFocus is XSetInputFocus, flush is XFlush. -/
inductive XOp where
  | getFocus
  | setFocus
  | keyDown (keycode : Nat)
  | keyUp (keycode : Nat)
  | buttonDown (button : Nat)
  | buttonUp (button : Nat)
  | flush
deriving DecidableEq

/-- Whether an XOp is a key-down event. -/
def XOp.isKeyDown : XOp → Bool
  | .keyDown _ => true
  | _ => false

/-- Whether an XOp is a key-up event. -/
def XOp.isKeyUp : XOp → Bool
  | .keyUp _ => true
  | _ => false

/-- XContext::fake_key_event: XTestFakeKeyEvent pressed then released. -/
def fake_key_event (keycode : Nat) : List XOp := [.keyDown keycode, .keyUp keycode]

/-- XContext::fake_button_event: XTestFakeButtonEvent pressed then
released. -/
def fake_button_event (button : Nat) : List XOp := [.buttonDown button, .buttonUp button]

/-- XContext::flip_to_saved_window: XGetInputFocus (saving the focused
window and revert state) followed by XSetInputFocus. -/
def flip_to_saved_window : List XOp := [.getFocus, .setFocus]

/-- XContext::restore_original_window: XSetInputFocus back to the saved
window and state. -/
def restore_original_window : List XOp := [.setFocus]

/-- XContext::flush_events: XFlush. -/
def flush_events : List XOp := [.flush]

/-- XContext::send_key_event_to_window (src/x11/inputsource.rs lines
130-135): save and flip focus, press and release the keycode, restore
focus, flush. -/
def send_key_event_to_window (keycode : Nat) : List XOp :=
  flip_to_saved_window ++ fake_key_event keycode ++ restore_original_window ++ flush_events

/-- XContext::send_button_event_to_window (lines 116-121): save and flip
focus, press and release the button, restore focus, flush. -/
def send_button_event_to_window (button : Nat) : List XOp :=
  flip_to_saved_window ++ fake_button_event button ++ restore_original_window ++ flush_events

/-- XContext::send_key_to_window (src/x11/inputsource.rs lines 137-144):
resolve the key name to a keycode, call send_key_event_to_window, and then
additionally flip focus, press and release the same keycode again, restore
focus and flush a second time. -/
def send_key_to_window (tr : List Char → Nat) (key_name : List Char) : List XOp :=
  send_key_event_to_window (tr key_name) ++
    flip_to_saved_window ++ fake_key_event (tr key_name) ++
      restore_original_window ++ flush_events

/-- InputEventQueue::do_event_fake (src/x11/inputsource.rs lines 402-415):
dispatch one popped event to the XContext injection method matching its
payload. -/
def do_event_fake (tr : List Char → Nat) (e : InputEvent) : List XOp :=
  match e.event with
  | .Mouse button => send_button_event_to_window button
  | .Keyboard key => send_key_to_window tr key
  | .XKeyboard key => send_key_event_to_window key

/-! Event-specification parsing (src/eventspec.rs and src/errors.rs). -/

/-- enum EventSpec from src/eventspec.rs: a parsed keyboard or mouse event
specification, intervals in milliseconds (Duration::from_millis). -/
inductive EventSpec where
  | KeyboardEvent (key : List Char) (interval : Nat)
  | MouseEvent (button : Nat) (interval : Nat)
deriving DecidableEq

/-- enum Error from src/errors.rs (the payload of ParseIntError variants
is dropped; only the offending text is kept). -/
inductive Error where
  | InputEventInterval (s : List Char)
  | MouseEventButton (s : List Char)
  | MouseEventSpec (s : List Char)
  | KeyboardEventSpec (s : List Char)
deriving DecidableEq

/-- str::split_once: split at the first occurrence of the delimiter,
returning the text before and after it (delimiter excluded), or none if
the delimiter does not occur. -/
def split_once : List Char → Char → Option (List Char × List Char)
  | [], _ => none
  | c :: rest, sep =>
    if c = sep then some ([], rest)
    else (split_once rest sep).map (fun p => (c :: p.1, p.2))

/-- str::parse::<u64>: an optional leading plus sign, then one or more
ASCII digits, rejecting anything else and values not fitting u64. -/
def parse_u64 (s : List Char) : Option Nat :=
  let digits := match s with
    | '+' :: rest => rest
    | _ => s
  if digits.isEmpty then none
  else if digits.all Char.isDigit then
    let v := digits.foldl (fun a c => a * 10 + (c.toNat - 48)) 0
    if v < 2 ^ 64 then some v else none
  else none

/-- EventSpec::parse_key (src/eventspec.rs lines 31-46): split the
argument at the first colon; the text before it becomes the key, the text
after it must parse as a u64 millisecond interval.  No colon is a
KeyboardEventSpec error; a bad interval is an InputEventInterval error. -/
def parse_key (arg : List Char) : Except Error EventSpec :=
  match split_once arg ':' with
  | some (key_str, interval_str) =>
    match parse_u64 interval_str with
    | some interval => .ok (.KeyboardEvent key_str interval)
    | none => .error (.InputEventInterval interval_str)
  | none => .error (.KeyboardEventSpec arg)

/-! Helper lemmas. -/

theorem prefixSums_length (rs : List Nat) : (prefixSums rs).length = rs.length := by
  induction rs with
  | nil => rfl
  | cons r rest ih => simp [prefixSums, ih]

theorem getD_map_add (c : Nat) (L : List Nat) (i : Nat) (h : i < L.length) :
    (L.map (c + ·)).getD i 0 = c + L.getD i 0 := by
  induction L generalizing i with
  | nil => simp at h
  | cons a L ih =>
    cases i with
    | zero => simp
    | succ i => simpa using ih i (by simpa using h)

theorem prefixSums_monotone (rs : List Nat) (i j : Nat) (hij : i ≤ j)
    (hj : j < rs.length) :
    (prefixSums rs).getD i 0 ≤ (prefixSums rs).getD j 0 := by
  induction rs generalizing i j with
  | nil => simp at hj
  | cons r rest ih =>
    cases j with
    | zero =>
      have : i = 0 := Nat.le_zero.mp hij
      subst this; exact Nat.le_refl _
    | succ j =>
      have hj' : j < rest.length := by simpa using hj
      have hjP : j < (prefixSums rest).length := by rw [prefixSums_length]; exact hj'
      cases i with
      | zero =>
        simp only [prefixSums, List.getD_cons_zero, List.getD_cons_succ]
        rw [getD_map_add _ _ _ hjP]
        exact Nat.le_add_right r _
      | succ i =>
        have hij' : i ≤ j := Nat.succ_le_succ_iff.mp hij
        have hiP : i < (prefixSums rest).length :=
          lt_of_le_of_lt hij' hjP
        simp only [prefixSums, List.getD_cons_succ]
        rw [getD_map_add _ _ _ hiP, getD_map_add _ _ _ hjP]
        exact Nat.add_le_add_left (ih i j hij' hj') r

theorem checked_sub_of_le (a b : Nat) (h : b ≤ a) : checked_sub a b = some (a - b) := by
  simp [checked_sub, h]

theorem fip_walk_checked_eq (l : List InputEvent) (r : Nat) :
    fip_walk_checked l r = some (fip_walk l r) := by
  induction l generalizing r with
  | nil => rfl
  | cons v rest ih =>
    by_cases h : r < v.remaining
    · simp [fip_walk_checked, fip_walk, h]
    · rw [fip_walk_checked, fip_walk]
      simp only [if_neg h]
      rw [checked_sub_of_le _ _ (Nat.le_of_not_lt h)]
      simp [ih]

theorem fip_walk_le_length (l : List InputEvent) (r : Nat) :
    (fip_walk l r).1 ≤ l.length := by
  induction l generalizing r with
  | nil => simp [fip_walk]
  | cons v rest ih =>
    by_cases h : r < v.remaining
    · simp [fip_walk, h]
    · simp only [fip_walk, if_neg h, List.length_cons]
      exact Nat.succ_le_succ (ih _)

theorem fip_walk_stop (l : List InputEvent) (r : Nat) (v : InputEvent)
    (h : l[(fip_walk l r).1]? = some v) : (fip_walk l r).2 < v.remaining := by
  induction l generalizing r with
  | nil => simp [fip_walk] at h
  | cons w rest ih =>
    by_cases hlt : r < w.remaining
    · simp only [fip_walk, if_pos hlt] at h ⊢
      simp only [List.getElem?_cons_zero, Option.some.injEq] at h
      subst h; exact hlt
    · simp only [fip_walk, if_neg hlt] at h ⊢
      simp only [List.getElem?_cons_succ] at h
      exact ih _ h

theorem add_at_fip_eq_insert_walk (ev : InputType) (intv : Nat) :
    ∀ (q : List InputEvent) (r : Nat),
      add_at q (fip_walk q r).1 ⟨ev, intv, (fip_walk q r).2⟩ = insert_walk ev intv q r := by
  intro q
  induction q with
  | nil => intro r; simp [fip_walk, add_at, insert_walk]
  | cons v rest ih =>
    intro r
    by_cases h : r < v.remaining
    · simp [fip_walk, add_at, insert_walk, h, List.insertIdx]
    · simp only [fip_walk, if_neg h, insert_walk, add_at,
        List.getElem?_cons_succ, List.set_cons_succ, List.insertIdx_succ_cons]
      have hrec := ih (r - v.remaining)
      rw [add_at] at hrec
      cases hg : rest[(fip_walk rest (r - v.remaining)).1]? with
      | none =>
        simp only [hg] at hrec ⊢
        rw [hrec]
      | some w =>
        simp only [hg] at hrec ⊢
        rw [hrec]

theorem add_event_eq_insert_walk (tr : List Char → Nat) (q : List InputEvent)
    (e : InputEvent) :
    add_event tr q e = insert_walk (e.event.as_x tr) e.interval q e.interval := by
  rw [add_event, find_insertion_point]
  exact add_at_fip_eq_insert_walk _ _ q e.interval

theorem absInsert_map_add (c x : Nat) (h : c ≤ x) (L : List Nat) :
    (absInsert (x - c) L).map (c + ·) = absInsert x (L.map (c + ·)) := by
  induction L with
  | nil => simp [absInsert, Nat.add_sub_cancel' h]
  | cons a L ih =>
    by_cases hx : x - c < a
    · have hx' : x < c + a := by omega
      simp [absInsert, if_pos hx, if_pos hx', Nat.add_sub_cancel' h]
    · have hx' : ¬x < c + a := by omega
      simp only [absInsert, List.map_cons, if_neg hx, if_neg hx']
      rw [ih]

theorem prefixSums_insert_walk (ev : InputType) (intv : Nat) :
    ∀ (l : List InputEvent) (r : Nat),
      prefixSums (rems (insert_walk ev intv l r)) = absInsert r (prefixSums (rems l)) := by
  intro l
  induction l with
  | nil => intro r; simp [insert_walk, rems, prefixSums, absInsert]
  | cons v rest ih =>
    intro r
    by_cases h : r < v.remaining
    · have hr : r + (v.remaining - r) = v.remaining := by omega
      simp only [insert_walk, if_pos h, rems, List.map_cons, prefixSums,
        absInsert, if_pos h, List.map_map]
      rw [hr]
      have hcomp : ((fun x => r + x) ∘ fun x => v.remaining - r + x)
          = (fun x => v.remaining + x) := by
        funext p
        simp only [Function.comp_apply]
        omega
      rw [hcomp]
    · simp only [insert_walk, if_neg h, rems, List.map_cons, prefixSums]
      rw [show (insert_walk ev intv rest (r - v.remaining)).map InputEvent.remaining
            = rems (insert_walk ev intv rest (r - v.remaining)) from rfl,
          show rest.map InputEvent.remaining = rems rest from rfl]
      rw [ih (r - v.remaining)]
      rw [absInsert_map_add v.remaining r (Nat.le_of_not_lt h)]
      simp [absInsert, if_neg (show ¬r < v.remaining from h)]

theorem prefixSums_tail (q : List InputEvent) :
    prefixSums (rems q.tail) = absPop (prefixSums (rems q)) := by
  cases q with
  | nil => rfl
  | cons v rest =>
    simp only [List.tail_cons, rems, List.map_cons, prefixSums, absPop, List.map_map]
    rw [show rest.map InputEvent.remaining = rems rest from rfl]
    conv_lhs => rw [show prefixSums (rems rest)
      = (prefixSums (rems rest)).map id from (List.map_id _).symm]
    congr 1
    funext p
    simp

theorem runDelta_abs_sim (tr : List Char → Nat) (ops : List QOp) :
    prefixSums (rems (runDelta tr ops)) = runAbs ops := by
  suffices h : ∀ (q : List InputEvent),
      prefixSums (rems (ops.foldl (fun q op => match op with
        | .add e => add_event tr q e
        | .pop => q.tail) q))
      = ops.foldl (fun L op => match op with
        | .add e => absInsert e.interval L
        | .pop => absPop L) (prefixSums (rems q)) by
    have := h []
    simpa [runDelta, runAbs, rems, prefixSums] using this
  induction ops with
  | nil => intro q; rfl
  | cons op ops ih =>
    intro q
    cases op with
    | add e =>
      simp only [List.foldl_cons]
      rw [ih, add_event_eq_insert_walk, prefixSums_insert_walk]
    | pop =>
      simp only [List.foldl_cons]
      rw [ih, prefixSums_tail]

theorem sum_take_prefixSums (rs : List Nat) (i : Nat) (h : i < rs.length) :
    (rs.take (i + 1)).sum = (prefixSums rs).getD i 0 := by
  induction rs generalizing i with
  | nil => simp at h
  | cons r rest ih =>
    cases i with
    | zero => simp [prefixSums]
    | succ i =>
      have h' : i < rest.length := by simpa using h
      have hP : i < (prefixSums rest).length := by rw [prefixSums_length]; exact h'
      simp only [List.take_succ_cons, List.sum_cons, prefixSums, List.getD_cons_succ]
      rw [getD_map_add _ _ _ hP, ih i h']

theorem fip_walk_before (l : List InputEvent) (r j : Nat)
    (hj : j < (fip_walk l r).1) : (prefixSums (rems l)).getD j 0 ≤ r := by
  induction l generalizing r j with
  | nil => simp [fip_walk] at hj
  | cons v rest ih =>
    by_cases h : r < v.remaining
    · rw [fip_walk] at hj
      simp [if_pos h] at hj
    · rw [fip_walk] at hj
      simp only [if_neg h] at hj
      cases j with
      | zero =>
        simpa [rems, prefixSums] using Nat.le_of_not_lt h
      | succ j =>
        have hj' : j < (fip_walk rest (r - v.remaining)).1 := Nat.succ_lt_succ_iff.mp hj
        have hlen : j < (prefixSums (rems rest)).length := by
          rw [prefixSums_length]
          exact lt_of_lt_of_le hj' (by simpa [rems] using fip_walk_le_length rest (r - v.remaining))
        have := ih (r - v.remaining) j hj'
        simp only [rems, List.map_cons, prefixSums, List.getD_cons_succ]
        rw [getD_map_add _ _ _ (by simpa [rems] using hlen)]
        have hvr : v.remaining ≤ r := Nat.le_of_not_lt h
        simp only [rems] at this
        omega

theorem fip_walk_after (l : List InputEvent) (r j : Nat)
    (hij : (fip_walk l r).1 ≤ j) (hj : j < l.length) :
    r < (prefixSums (rems l)).getD j 0 := by
  induction l generalizing r j with
  | nil => simp at hj
  | cons v rest ih =>
    by_cases h : r < v.remaining
    · have h0 : (prefixSums (rems (v :: rest))).getD 0 0 = v.remaining := by
        simp [rems, prefixSums]
      have hmono := prefixSums_monotone (rems (v :: rest)) 0 j (Nat.zero_le j)
        (by simpa [rems] using hj)
      rw [h0] at hmono
      exact lt_of_lt_of_le h hmono
    · rw [fip_walk] at hij
      simp only [if_neg h] at hij
      cases j with
      | zero => simp at hij
      | succ j =>
        have hij' : (fip_walk rest (r - v.remaining)).1 ≤ j := Nat.succ_le_succ_iff.mp hij
        have hj' : j < rest.length := by simpa using hj
        have hlen : j < (prefixSums (rems rest)).length := by
          rw [prefixSums_length]; simpa [rems] using hj'
        have := ih (r - v.remaining) j hij' hj'
        simp only [rems, List.map_cons, prefixSums, List.getD_cons_succ]
        rw [getD_map_add _ _ _ (by simpa [rems] using hlen)]
        have hvr : v.remaining ≤ r := Nat.le_of_not_lt h
        simp only [rems] at this
        omega

/-! Claim theorems. -/

/-- Claim C1 (confirmed): for every queue reachable by any sequence of
add_event and pop operations starting from the empty queue, and for every
entry index i, the sum of the remaining fields from the front of the queue
up to and including entry i equals the absolute time-until-due of entry i,
where the absolute times-until-due are maintained by the
specification-level model runAbs (insertion assigns the full interval as
the new absolute time, ordered by the strictly-less walk; a pop charges
the fired event's absolute time against all later entries).  This holds
after every insertion and every pop because ops ranges over all
sequences. -/
theorem c1_delta_queue_invariant (tr : List Char → Nat) (ops : List QOp) (i : Nat)
    (h : i < (runDelta tr ops).length) :
    (rems ((runDelta tr ops).take (i + 1))).sum = (runAbs ops).getD i 0 := by
  have hlen : i < (rems (runDelta tr ops)).length := by simpa [rems] using h
  have htake : rems ((runDelta tr ops).take (i + 1))
      = (rems (runDelta tr ops)).take (i + 1) := by
    simp [rems, List.map_take]
  rw [htake, sum_take_prefixSums _ _ hlen, runDelta_abs_sim]

/-- Witness for C1: after inserting a 1000ms event and then a 4000ms event
into the empty queue, the sum of remaining through entry 1 (1000 + 3000)
equals the second entry's absolute time-until-due 4000. -/
theorem c1_delta_queue_invariant_witness :
    (rems ((runDelta (fun _ => 0) [QOp.add ⟨InputType.Mouse 1, 1000, 0⟩,
        QOp.add ⟨InputType.Mouse 2, 4000, 0⟩]).take 2)).sum
    = (runAbs [QOp.add ⟨InputType.Mouse 1, 1000, 0⟩,
        QOp.add ⟨InputType.Mouse 2, 4000, 0⟩]).getD 1 0 :=
  c1_delta_queue_invariant (fun _ => 0) _ 1 (by decide)

/-- Claim C2 (confirmed): in any queue, if entry i's absolute due time
(prefix sum of remaining through i) is strictly earlier than entry j's,
then i is in front of j; and the insertion walk of find_insertion_point
uses a strictly-less comparison, so the computed insertion index lies
after every entry whose absolute due time is at most the incoming event's
interval (in particular, after every exact tie — the delta-level tie
r = entry.remaining is exactly the absolute-level tie prefix-sum =
interval) and before every entry whose absolute due time strictly exceeds
it.  Hence on exact ties the earlier-inserted event stays in front and
fires first. -/
theorem c2_ordering_stable_tiebreak (q : List InputEvent) :
    (∀ i j, i < q.length → j < q.length → absDueAt q i < absDueAt q j → i < j)
    ∧ (∀ e j, j < (find_insertion_point q e).1 → absDueAt q j ≤ e.interval)
    ∧ (∀ e j, (find_insertion_point q e).1 ≤ j → j < q.length →
        e.interval < absDueAt q j) := by
  refine ⟨?_, ?_, ?_⟩
  · intro i j hi _ hlt
    by_contra hcon
    have hij : j ≤ i := Nat.le_of_not_lt hcon
    have hmono := prefixSums_monotone (rems q) j i hij (by simpa [rems] using hi)
    unfold absDueAt at hlt
    omega
  · intro e j hj
    exact fip_walk_before q e.interval j hj
  · intro e j h1 h2
    exact fip_walk_after q e.interval j h1 h2

/-- Witness for C2: in the queue with remaining deltas [1000, 3000]
(absolute dues 1000 and 4000), entry 0 is due before entry 1 so 0 < 1; a
4000ms incoming event is inserted at index 2, strictly after the exact tie
at entry 1; a 3999ms incoming event is inserted at index 1, before entry 1
whose absolute due 4000 exceeds it. -/
theorem c2_ordering_stable_tiebreak_witness :
    (0 : Nat) < 1
    ∧ absDueAt [⟨InputType.Mouse 1, 1000, 1000⟩, ⟨InputType.Mouse 2, 4000, 3000⟩] 1 ≤ 4000
    ∧ (3999 : Nat)
      < absDueAt [⟨InputType.Mouse 1, 1000, 1000⟩, ⟨InputType.Mouse 2, 4000, 3000⟩] 1 :=
  ⟨(c2_ordering_stable_tiebreak
      [⟨InputType.Mouse 1, 1000, 1000⟩, ⟨InputType.Mouse 2, 4000, 3000⟩]).1 0 1
      (by decide) (by decide) (by decide),
   (c2_ordering_stable_tiebreak
      [⟨InputType.Mouse 1, 1000, 1000⟩, ⟨InputType.Mouse 2, 4000, 3000⟩]).2.1
      ⟨InputType.Mouse 3, 4000, 0⟩ 1 (by decide),
   (c2_ordering_stable_tiebreak
      [⟨InputType.Mouse 1, 1000, 1000⟩, ⟨InputType.Mouse 2, 4000, 3000⟩]).2.2
      ⟨InputType.Mouse 3, 3999, 0⟩ 1 (by decide) (by decide)⟩

/-- Claim C3 (confirmed): whenever run_next pops an event whose stored
remaining delay is less than or equal to the wall-clock time elapsed since
last_active, the loop performs no sleep and advances last_active by
exactly the event's remaining, not by the elapsed time. -/
theorem c3_catch_up_no_sleep (tr : List Char → Nat) (s : SchedState)
    (now now_after_sleep : Nat) (e : InputEvent) (rest : List InputEvent)
    (hev : s.events = e :: rest) (hwall : s.last_active ≤ now)
    (hdue : e.remaining ≤ now - s.last_active) :
    (run_next tr s now now_after_sleep).2 = SleepAction.noSleep
    ∧ (run_next tr s now now_after_sleep).1.last_active = s.last_active + e.remaining := by
  obtain ⟨evs, la⟩ := s
  simp only at hev
  subst hev
  simp only at hdue hwall
  have hnot : ¬ e.remaining > now - la := Nat.not_lt.mpr hdue
  simp [run_next, if_neg hnot]

/-- Witness for C3: popping an event with 1000ms remaining after 1200ms of
elapsed wall time takes the catch-up path, performs no sleep, and advances
last_active by exactly 1000ms (to 0 + 1000), not by 1200ms. -/
theorem c3_catch_up_no_sleep_witness :
    (run_next (fun _ => 0) ⟨[⟨InputType.Mouse 1, 1000, 1000⟩], 0⟩ 1200 1200).2
      = SleepAction.noSleep
    ∧ (run_next (fun _ => 0) ⟨[⟨InputType.Mouse 1, 1000, 1000⟩], 0⟩ 1200 1200).1.last_active
      = 0 + 1000 :=
  c3_catch_up_no_sleep (fun _ => 0) _ 1200 1200 ⟨InputType.Mouse 1, 1000, 1000⟩ []
    rfl (by decide) (by decide)

/-- Claim C10 (confirmed): for every queue (in particular every queue
satisfying the delta-sum invariant) and every incoming event, the checked
model of add_event — in which both Duration subtractions
(`event.remaining -= v_event.remaining` during the walk and
`next_event.remaining -= event.remaining` at the insertion point) abort on
underflow — succeeds and returns exactly the unchecked result: the walk
subtracts only under the not-strictly-less guard, and the entry at the
insertion point always has remaining strictly greater than the incoming
event's final remaining, so neither subtraction underflows and add_event
never aborts. -/
theorem c10_no_underflow (tr : List Char → Nat) (q : List InputEvent) (e : InputEvent) :
    add_event_checked tr q e = some (add_event tr q e) := by
  have hfip := fip_walk_checked_eq q e.interval
  simp only [add_event_checked, hfip, add_event, find_insertion_point, add_at]
  cases hg : q[(fip_walk q e.interval).1]? with
  | none => simp only [hg]
  | some v =>
    have hle : (fip_walk q e.interval).2 ≤ v.remaining :=
      Nat.le_of_lt (fip_walk_stop q e.interval v hg)
    simp only [hg, checked_sub_of_le _ _ hle]

/-- Counterexample for C4: the claim states that while the gate reports
paused the loop modifies neither last_active nor the queue, last_active
being reset only on the transition back to Active.  But one paused-phase
iteration of start (sleep the 500ms pause_poll quantum, then set
last_active to now) changes the state even when the gate is still paused
at the next check: from last_active = 0 it moves to last_active = 500. -/
theorem c4_pause_frame_counterexample :
    pause_poll_step ⟨[⟨InputType.Mouse 1, 1000, 1000⟩], 0⟩ 500
      ≠ (⟨[⟨InputType.Mouse 1, 1000, 1000⟩], 0⟩ : SchedState) := by
  decide

/-- Claim C4 as amended (corrected): while the gate reports paused, the
loop never modifies the queue, but it resets last_active to the current
instant after every pause-poll sleep, not only on the transition back to
Active.  Because the last reset happens at the final poll instant t just
before the gate reopens, the state after an arbitrarily long paused phase
equals the state after a single poll at t: paused wall-clock time is never
charged against any event's remaining delay, so the next popped event's
sleep duration is unaffected by the pause. -/
theorem c4_pause_isolation_amended (s : SchedState) (polls : List Nat) (t : Nat) :
    (pause_phase s (polls ++ [t])).events = s.events
    ∧ (pause_phase s (polls ++ [t])).last_active = t
    ∧ pause_phase s (polls ++ [t]) = pause_phase s [t] := by
  have key : ∀ (ps : List Nat) (s0 : SchedState) (u : Nat),
      pause_phase s0 (ps ++ [u]) = ⟨s0.events, u⟩ := by
    intro ps
    induction ps with
    | nil => intro s0 u; rfl
    | cons p ps ih =>
      intro s0 u
      show pause_phase (pause_poll_step s0 p) (ps ++ [u]) = _
      rw [ih]
      rfl
  have h1 := key polls s t
  have h2 : pause_phase s [t] = ⟨s.events, t⟩ := key [] s t
  rw [h1, h2]
  exact ⟨rfl, rfl, rfl⟩

/-- Counterexample for C5: the claim states that paused() returns true
exactly when the keyboard activity indicator is raised.  With the numlock
indicator raised (indicator word 2, so the 0x02 bit is set), the x11
paused() returns false, not true. -/
theorem c5_gate_polarity_counterexample :
    x11_paused 2 = false ∧ indicator_raised 2 = true := by
  decide

/-- Claim C5 as amended (corrected): paused() returns true exactly when
the keyboard activity indicator is NOT raised — in both backends the gate
is open (injection runs) precisely while the numlock indicator is lit, and
closed when it is off or unreadable. -/
theorem c5_gate_polarity_amended :
    (∀ indicators : Nat, x11_paused indicators = !(indicator_raised indicators))
    ∧ (∀ devices : List (Option Bool),
        wayland_paused devices = !(numlock_enabled devices)) :=
  ⟨fun _ => rfl, fun _ => rfl⟩

/-- Counterexample for C6: insertion order of two fresh events does change
the resulting queue when their intervals tie exactly.  Inserting mouse
button 1 then mouse button 2, both with interval 5, yields
[button1 (remaining 5), button2 (remaining 0)], while the other order
yields [button2 (remaining 5), button1 (remaining 0)]. -/
theorem c6_insertion_order_counterexample :
    add_event (fun _ => 0) (add_event (fun _ => 0) [] ⟨InputType.Mouse 1, 5, 0⟩)
      ⟨InputType.Mouse 2, 5, 0⟩
    ≠ add_event (fun _ => 0) (add_event (fun _ => 0) [] ⟨InputType.Mouse 2, 5, 0⟩)
      ⟨InputType.Mouse 1, 5, 0⟩ := by
  decide

/-- Claim C6 as amended (corrected): inserting event A (interval 1000ms)
then event B (interval 4000ms) into an empty queue yields
[A(remaining=1000), B(remaining=3000)], and inserting B then A yields
exactly the same queue; in general the final queue is independent of the
insertion order of two fresh events whenever their intervals are distinct
(on an exact tie the stable tie-break keeps the first-inserted event in
front, so the two orders differ). -/
theorem c6_insertion_order_amended :
    (∀ tr : List Char → Nat,
      add_event tr (add_event tr [] ⟨InputType.Mouse 1, 1000, 0⟩) ⟨InputType.Mouse 2, 4000, 0⟩
        = [⟨InputType.Mouse 1, 1000, 1000⟩, ⟨InputType.Mouse 2, 4000, 3000⟩]
      ∧ add_event tr (add_event tr [] ⟨InputType.Mouse 2, 4000, 0⟩) ⟨InputType.Mouse 1, 1000, 0⟩
        = [⟨InputType.Mouse 1, 1000, 1000⟩, ⟨InputType.Mouse 2, 4000, 3000⟩])
    ∧ (∀ (tr : List Char → Nat) (e1 e2 : InputEvent), e1.interval ≠ e2.interval →
        add_event tr (add_event tr [] e1) e2 = add_event tr (add_event tr [] e2) e1) := by
  have two : ∀ (tr : List Char → Nat) (e1 e2 : InputEvent),
      add_event tr (add_event tr [] e1) e2 =
        if e2.interval < e1.interval then
          [⟨e2.event.as_x tr, e2.interval, e2.interval⟩,
           ⟨e1.event.as_x tr, e1.interval, e1.interval - e2.interval⟩]
        else
          [⟨e1.event.as_x tr, e1.interval, e1.interval⟩,
           ⟨e2.event.as_x tr, e2.interval, e2.interval - e1.interval⟩] := by
    intro tr e1 e2
    rw [add_event_eq_insert_walk, add_event_eq_insert_walk]
    by_cases h : e2.interval < e1.interval <;> simp [insert_walk, h]
  constructor
  · intro tr
    rw [two tr ⟨InputType.Mouse 1, 1000, 0⟩ ⟨InputType.Mouse 2, 4000, 0⟩,
        two tr ⟨InputType.Mouse 2, 4000, 0⟩ ⟨InputType.Mouse 1, 1000, 0⟩]
    constructor <;> simp [InputType.as_x]
  · intro tr e1 e2 hne
    rw [two tr e1 e2, two tr e2 e1]
    rcases Nat.lt_or_ge e2.interval e1.interval with h | h
    · rw [if_pos h, if_neg (by omega)]
    · rw [if_neg (by omega), if_pos (by omega)]

/-- Witness for C6's amended claim: with intervals 1000 and 4000 the two
insertion orders produce the same queue. -/
theorem c6_insertion_order_amended_witness :
    add_event (fun _ => 0) (add_event (fun _ => 0) [] ⟨InputType.Mouse 1, 1000, 0⟩)
      ⟨InputType.Mouse 2, 4000, 0⟩
    = add_event (fun _ => 0) (add_event (fun _ => 0) [] ⟨InputType.Mouse 2, 4000, 0⟩)
      ⟨InputType.Mouse 1, 1000, 0⟩ :=
  c6_insertion_order_amended.2 (fun _ => 0) ⟨InputType.Mouse 1, 1000, 0⟩
    ⟨InputType.Mouse 2, 4000, 0⟩ (by decide)

/-- Claim C7 (code bug): dispatching a keyboard event whose payload still
carries the key name (InputType::Keyboard) reaches
XContext::send_key_to_window, whose transaction emits two key-down and two
key-up events (it performs the whole save/press/release/restore/flush
bracket, then repeats it), while the claim and the spec require exactly
one key-down immediately followed by one key-up per transaction.  The
queue's own path is unaffected only because add_event converts Keyboard
payloads to XKeyboard keycodes, which dispatch to
send_key_event_to_window and its single press/release pair. -/
theorem c7_double_key_emission (tr : List Char → Nat) :
    ((do_event_fake tr ⟨InputType.Keyboard ['q'], 1000, 0⟩).countP XOp.isKeyDown) = 2
    ∧ ((do_event_fake tr ⟨InputType.Keyboard ['q'], 1000, 0⟩).countP XOp.isKeyUp) = 2
    ∧ ((do_event_fake tr ⟨InputType.XKeyboard 24, 1000, 0⟩).countP XOp.isKeyDown) = 1
    ∧ ((do_event_fake tr ⟨InputType.XKeyboard 24, 1000, 0⟩).countP XOp.isKeyUp) = 1 :=
  ⟨rfl, rfl, rfl, rfl⟩

/-- Counterexample for C8: the claim states that paused() returns false
when querying the activity indicator fails.  With a single keyboard device
whose LED query returns an error — and likewise with no keyboard device at
all — the wayland paused() returns true, not false. -/
theorem c8_gate_failure_counterexample :
    wayland_paused [none] = true ∧ wayland_paused [] = true := by
  decide

/-- Claim C8 as amended (corrected): a gate query failure is non-fatal but
is treated as "paused", not "not paused": NumlockWatcher::enabled maps
every erroring device to false and defaults to false when no device
reports a lit numlock LED, so when every device query fails (or no
keyboard device exists) paused() returns true and injection stays
suppressed. -/
theorem c8_gate_failure_amended (devices : List (Option Bool))
    (hfail : ∀ r ∈ devices, r = none) : wayland_paused devices = true := by
  induction devices with
  | nil => rfl
  | cons d ds ih =>
    have hd : d = none := hfail d (List.mem_cons_self d ds)
    subst hd
    have hds := ih (fun r hr => hfail r (List.mem_cons_of_mem _ hr))
    simpa [wayland_paused, numlock_enabled, List.find?] using hds

/-- Witness for C8's amended claim: one erroring keyboard device. -/
theorem c8_gate_failure_amended_witness : wayland_paused [none] = true :=
  c8_gate_failure_amended [none] (by simp)

/-- Counterexample for C9: the claim states that parse_key rejects every
input whose key part (the text before the colon) is empty.  But
EventSpec::parse_key splits at the first colon without validating the key
text, so the input ":1000" parses successfully to a KeyboardEvent with an
empty key name and a 1000ms interval. -/
theorem c9_empty_key_counterexample :
    parse_key [':', '1', '0', '0', '0'] = Except.ok (EventSpec.KeyboardEvent [] 1000) := by
  rfl

/-- Claim C9 as amended (corrected): EventSpec::parse_key does not require
a non-empty key part: whenever the text after the leading colon parses as
a u64, an input with an empty key part is accepted and yields a
KeyboardEvent with an empty key name; parse_key returns an error only when
the input contains no colon (KeyboardEventSpec) or the interval text fails
to parse (InputEventInterval). -/
theorem c9_empty_key_amended :
    (∀ (rest : List Char) (n : Nat), parse_u64 rest = some n →
      parse_key (':' :: rest) = Except.ok (EventSpec.KeyboardEvent [] n))
    ∧ (∀ arg : List Char, split_once arg ':' = none →
      parse_key arg = Except.error (Error.KeyboardEventSpec arg)) := by
  constructor
  · intro rest n h
    simp [parse_key, split_once, h]
  · intro arg h
    simp [parse_key, h]

/-- Witness for C9's amended claim: the input ":250" (empty key part,
valid interval) is accepted with an empty key name. -/
theorem c9_empty_key_amended_witness :
    parse_key (':' :: ['2', '5', '0']) = Except.ok (EventSpec.KeyboardEvent [] 250) :=
  c9_empty_key_amended.1 ['2', '5', '0'] 250 (by decide)

end Clickrs
